import Mathlib

/-!
Verification of the dc-backend polling engine (src/index.js, src/worker.js).

JS strings are modelled as lists of Unicode code points (`List Nat`).  The
matcher and extractor operate on text from the remote site, so the case
mapping of `toLowerCase` is modelled on the ASCII letters, which is exact on
every code point the functions compare against.
-/

namespace DcBackend

/-- Code points of a Lean string literal; used to write concrete JS strings. -/
def strToCodes (s : String) : List Nat := s.toList.map Char.toNat

/-- White-space code points matched by the JS regexp class `\s` (and removed
by `String.prototype.trim`). -/
def jsSpaceCodes : List Nat :=
  [9, 10, 11, 12, 13, 32, 160, 0x1680, 0x2000, 0x2001, 0x2002, 0x2003, 0x2004,
   0x2005, 0x2006, 0x2007, 0x2008, 0x2009, 0x200a, 0x2028, 0x2029, 0x202f,
   0x205f, 0x3000, 0xfeff]

def jsIsSpace (n : Nat) : Bool := jsSpaceCodes.contains n

/-- Per-code-point model of `String.prototype.toLowerCase` (ASCII range). -/
def toLowerCode (n : Nat) : Nat := if 65 ≤ n ∧ n ≤ 90 then n + 32 else n

/-- Model of `replace(/\s+/g, ' ')`: each maximal run of white space becomes a
single `' '` (code 32).  The flag records whether we are inside a run that has
already emitted its space. -/
def collapseWSAux : Bool → List Nat → List Nat
  | _, [] => []
  | inRun, c :: cs =>
    if jsIsSpace c then
      if inRun then collapseWSAux true cs else 32 :: collapseWSAux true cs
    else c :: collapseWSAux false cs

def collapseWS (s : List Nat) : List Nat := collapseWSAux false s

def trimLeft (s : List Nat) : List Nat := s.dropWhile jsIsSpace

def trimRight (s : List Nat) : List Nat := (s.reverse.dropWhile jsIsSpace).reverse

/-- Model of `String.prototype.trim`. -/
def trim (s : List Nat) : List Nat := trimRight (trimLeft s)

/-- Model of `normalizeName` (src/index.js lines 111-117): guard for a falsy
argument, lower-case, remove periods (code 46), collapse white-space runs to
single spaces, trim. -/
def normalizeName (s : List Nat) : List Nat :=
  if s = [] then []
  else trim (collapseWS ((s.map toLowerCode).filter (fun n => decide (n ≠ 46))))

section NormalizeLemmas

theorem toLowerCode_idem (n : Nat) : toLowerCode (toLowerCode n) = toLowerCode n := by
  simp only [toLowerCode]
  split_ifs <;> omega

theorem mem_collapseWSAux {x : Nat} :
    ∀ (b : Bool) (s : List Nat), x ∈ collapseWSAux b s →
      x = 32 ∨ (x ∈ s ∧ jsIsSpace x = false) := by
  intro b s
  induction s generalizing b with
  | nil => simp [collapseWSAux]
  | cons c cs ih =>
    intro hx
    simp only [collapseWSAux] at hx
    by_cases hc : jsIsSpace c = true
    · rw [if_pos hc] at hx
      rcases b with _ | _
      · simp only [if_neg (by simp : ¬(false = true)), List.mem_cons] at hx
        rcases hx with hx | hx
        · exact Or.inl hx
        · rcases ih true hx with h | ⟨h1, h2⟩
          · exact Or.inl h
          · exact Or.inr ⟨List.mem_cons_of_mem _ h1, h2⟩
      · rw [if_pos rfl] at hx
        rcases ih true hx with h | ⟨h1, h2⟩
        · exact Or.inl h
        · exact Or.inr ⟨List.mem_cons_of_mem _ h1, h2⟩
    · rw [if_neg hc] at hx
      rcases List.mem_cons.mp hx with hx | hx
      · exact Or.inr ⟨hx ▸ List.mem_cons_self _ _, hx ▸ (by simpa using hc)⟩
      · rcases ih false hx with h | ⟨h1, h2⟩
        · exact Or.inl h
        · exact Or.inr ⟨List.mem_cons_of_mem _ h1, h2⟩

/-- Adjacent elements of a collapsed list are never both white space. -/
def NoWSPair (a b : Nat) : Prop := jsIsSpace a = false ∨ jsIsSpace b = false

theorem head?_collapseWSAux_true :
    ∀ (s : List Nat) (y : Nat), (collapseWSAux true s).head? = some y →
      jsIsSpace y = false := by
  intro s
  induction s with
  | nil => simp [collapseWSAux]
  | cons c cs ih =>
    intro y hy
    by_cases hc : jsIsSpace c = true
    · simp only [collapseWSAux, hc, if_true] at hy
      exact ih y hy
    · simp only [collapseWSAux, hc, if_false, Bool.false_eq_true,
        List.head?_cons, Option.some.injEq] at hy
      subst hy
      simpa using hc

theorem chain'_collapseWSAux :
    ∀ (b : Bool) (s : List Nat), List.Chain' NoWSPair (collapseWSAux b s) := by
  intro b s
  induction s generalizing b with
  | nil => simp [collapseWSAux]
  | cons c cs ih =>
    simp only [collapseWSAux]
    by_cases hc : jsIsSpace c = true
    · rw [if_pos hc]
      rcases b with _ | _
      · rw [if_neg (by simp : ¬(false = true))]
        refine List.chain'_cons'.mpr ⟨?_, ih true⟩
        intro y hy
        exact Or.inr (head?_collapseWSAux_true cs y hy)
      · rw [if_pos rfl]
        exact ih true
    · rw [if_neg hc]
      refine List.chain'_cons'.mpr ⟨?_, ih false⟩
      intro y _
      exact Or.inl (by simpa using hc)

/-- `collapseWSAux` is the identity on lists whose white space is already a
set of isolated single spaces. -/
theorem collapseWSAux_eq_self :
    ∀ (l : List Nat), (∀ x ∈ l, jsIsSpace x = true → x = 32) →
      List.Chain' NoWSPair l →
      collapseWSAux false l = l ∧
        ((∀ y, l.head? = some y → jsIsSpace y = false) → collapseWSAux true l = l) := by
  intro l
  induction l with
  | nil => simp [collapseWSAux]
  | cons c cs ih =>
    intro hmem hch
    have hch' := List.chain'_cons'.mp hch
    have ihcs := ih (fun x hx => hmem x (List.mem_cons_of_mem _ hx)) hch'.2
    by_cases hc : jsIsSpace c = true
    · have hc32 : c = 32 := hmem c (List.mem_cons_self _ _) hc
      have hcs_head : ∀ y, cs.head? = some y → jsIsSpace y = false := by
        intro y hy
        rcases hch'.1 y hy with h | h
        · exact absurd hc (by simp [h])
        · exact h
      have htrue : collapseWSAux true cs = cs := ihcs.2 hcs_head
      constructor
      · subst hc32
        have h32 : jsIsSpace 32 = true := by decide
        simp [collapseWSAux, h32, htrue]
      · intro hhead
        have := hhead c (by simp)
        exact absurd hc (by simp [this])
    · have hfalse : collapseWSAux false cs = cs := ihcs.1
      have step : collapseWSAux false (c :: cs) = c :: cs := by
        simp only [collapseWSAux, if_neg hc, hfalse]
      refine ⟨step, fun _ => ?_⟩
      simp only [collapseWSAux, if_neg hc, hfalse]

theorem dropWhile_eq_self_of_head {p : Nat → Bool} :
    ∀ (l : List Nat), (∀ y, l.head? = some y → p y = false) → l.dropWhile p = l := by
  intro l h
  cases l with
  | nil => rfl
  | cons c cs =>
    have := h c (by simp)
    simp [List.dropWhile, this]

theorem head?_dropWhile {p : Nat → Bool} :
    ∀ (l : List Nat) (y : Nat), (l.dropWhile p).head? = some y → p y = false := by
  intro l
  induction l with
  | nil => simp [List.dropWhile]
  | cons c cs ih =>
    intro y hy
    by_cases hc : p c = true
    · rw [List.dropWhile_cons, if_pos hc] at hy
      exact ih y hy
    · rw [List.dropWhile_cons, if_neg hc] at hy
      simp only [List.head?_cons, Option.some.injEq] at hy
      subst hy
      simpa using hc

theorem exists_append_dropWhile {p : Nat → Bool} :
    ∀ (l : List Nat), ∃ t, t ++ l.dropWhile p = l := by
  intro l
  induction l with
  | nil => exact ⟨[], rfl⟩
  | cons c cs ih =>
    by_cases hc : p c = true
    · rcases ih with ⟨t, ht⟩
      exact ⟨c :: t, by simp [List.dropWhile_cons, hc, ht]⟩
    · exact ⟨[], by simp [List.dropWhile_cons, hc]⟩

theorem mem_dropWhile {p : Nat → Bool} {x : Nat} {l : List Nat}
    (hx : x ∈ l.dropWhile p) : x ∈ l := by
  rcases exists_append_dropWhile (p := p) l with ⟨t, ht⟩
  rw [← ht]
  exact List.mem_append_right _ hx

theorem mem_trim {x : Nat} {l : List Nat} (hx : x ∈ trim l) : x ∈ l := by
  simp only [trim, trimRight, trimLeft, List.mem_reverse] at hx
  exact mem_dropWhile (List.mem_reverse.mp (mem_dropWhile hx))

theorem trim_eq_self {l : List Nat}
    (h1 : ∀ y, l.head? = some y → jsIsSpace y = false)
    (h2 : ∀ y, l.reverse.head? = some y → jsIsSpace y = false) : trim l = l := by
  have hl : trimLeft l = l := dropWhile_eq_self_of_head l h1
  have hr : l.reverse.dropWhile jsIsSpace = l.reverse :=
    dropWhile_eq_self_of_head l.reverse h2
  simp [trim, hl, trimRight, hr]

theorem chain'_dropWhile {R : Nat → Nat → Prop} {p : Nat → Bool} :
    ∀ (l : List Nat), List.Chain' R l → List.Chain' R (l.dropWhile p) := by
  intro l h
  induction l with
  | nil => simp
  | cons c cs ih =>
    by_cases hc : p c = true
    · rw [List.dropWhile_cons, if_pos hc]
      exact ih (List.chain'_cons'.mp h).2
    · rwa [List.dropWhile_cons, if_neg hc]

theorem chain'_reverse_self {R : Nat → Nat → Prop}
    (hsymm : ∀ a b, R a b → R b a) {l : List Nat}
    (h : List.Chain' R l) : List.Chain' R l.reverse := by
  rw [List.chain'_reverse]
  exact h.imp (fun a b hab => hsymm a b hab)

theorem chain'_trim {l : List Nat}
    (h : List.Chain' NoWSPair l) : List.Chain' NoWSPair (trim l) := by
  have hsymm : ∀ a b, NoWSPair a b → NoWSPair b a := fun a b hab => hab.symm
  have h1 : List.Chain' NoWSPair (trimLeft l) := chain'_dropWhile l h
  have h2 : List.Chain' NoWSPair (trimLeft l).reverse := chain'_reverse_self hsymm h1
  have h3 : List.Chain' NoWSPair ((trimLeft l).reverse.dropWhile jsIsSpace) :=
    chain'_dropWhile _ h2
  exact chain'_reverse_self hsymm h3

theorem head?_of_isPrefixOf {l' l : List Nat} {y : Nat}
    (hp : l' <+: l) (hy : l'.head? = some y) : l.head? = some y := by
  rcases hp with ⟨t, ht⟩
  cases l' with
  | nil => simp at hy
  | cons a l'' =>
    simp only [List.head?_cons, Option.some.injEq] at hy
    subst hy
    rw [← ht]
    rfl

theorem trimRight_isPrefixOf (l : List Nat) : trimRight l <+: l := by
  rcases exists_append_dropWhile (p := jsIsSpace) l.reverse with ⟨t, ht⟩
  refine ⟨t.reverse, ?_⟩
  have := congrArg List.reverse ht
  simpa [List.reverse_append] using this

theorem head?_trim {l : List Nat} {y : Nat} (hy : (trim l).head? = some y) :
    jsIsSpace y = false := by
  have hpref : trim l <+: trimLeft l := trimRight_isPrefixOf (trimLeft l)
  exact head?_dropWhile l y (head?_of_isPrefixOf hpref hy)

theorem head?_reverse_trim {l : List Nat} {y : Nat}
    (hy : (trim l).reverse.head? = some y) : jsIsSpace y = false := by
  have : (trim l).reverse = (trimLeft l).reverse.dropWhile jsIsSpace := by
    simp [trim, trimRight]
  rw [this] at hy
  exact head?_dropWhile _ y hy

theorem map_eq_self_of_fixed {f : Nat → Nat} :
    ∀ (l : List Nat), (∀ x ∈ l, f x = x) → l.map f = l := by
  intro l h
  induction l with
  | nil => rfl
  | cons c cs ih =>
    simp only [List.map_cons, h c (List.mem_cons_self _ _), List.cons.injEq, true_and]
    exact ih (fun x hx => h x (List.mem_cons_of_mem _ hx))

/-- Every element of `normalizeName s` is a fixed point of `toLowerCode`,
differs from `46` (`'.'`), and is `32` whenever it is white space. -/
theorem mem_normalizeName {x : Nat} {s : List Nat} (hx : x ∈ normalizeName s) :
    toLowerCode x = x ∧ x ≠ 46 ∧ (jsIsSpace x = true → x = 32) := by
  simp only [normalizeName] at hx
  by_cases hs : s = []
  · rw [if_pos hs] at hx
    simp at hx
  · rw [if_neg hs] at hx
    have hx' := mem_trim hx
    rcases mem_collapseWSAux _ _ hx' with h32 | ⟨hmem, hns⟩
    · subst h32
      refine ⟨by simp [toLowerCode], by decide, fun _ => rfl⟩
    · rcases List.mem_filter.mp hmem with ⟨hmap, hne⟩
      rcases List.mem_map.mp hmap with ⟨y, _, hy⟩
      refine ⟨hy ▸ toLowerCode_idem y, by simpa using hne, fun h => absurd h (by simp [hns])⟩

theorem chain'_normalizeName (s : List Nat) :
    List.Chain' NoWSPair (normalizeName s) := by
  simp only [normalizeName]
  by_cases hs : s = []
  · simp [hs]
  · rw [if_neg hs]
    exact chain'_trim (chain'_collapseWSAux false _)

theorem head?_normalizeName {s : List Nat} {y : Nat}
    (hy : (normalizeName s).head? = some y) : jsIsSpace y = false := by
  simp only [normalizeName] at hy
  by_cases hs : s = []
  · rw [if_pos hs] at hy
    simp at hy
  · rw [if_neg hs] at hy
    exact head?_trim hy

theorem head?_reverse_normalizeName {s : List Nat} {y : Nat}
    (hy : (normalizeName s).reverse.head? = some y) : jsIsSpace y = false := by
  simp only [normalizeName] at hy
  by_cases hs : s = []
  · rw [if_pos hs] at hy
    simp at hy
  · rw [if_neg hs] at hy
    exact head?_reverse_trim hy

end NormalizeLemmas

/-- C10.  `normalizeName` is idempotent: normalizing an already normalized
string changes nothing, so the matcher behaves the same on pre-normalized
inputs.  Confirmed against src/index.js lines 110-117. -/
theorem normalizeName_idempotent (s : List Nat) :
    normalizeName (normalizeName s) = normalizeName s := by
  set N := normalizeName s with hN
  by_cases hNe : N = []
  · simp [normalizeName, hNe]
  · have hmap : N.map toLowerCode = N :=
      map_eq_self_of_fixed N (fun x hx => (mem_normalizeName (hN ▸ hx)).1)
    have hfilter : N.filter (fun n => decide (n ≠ 46)) = N :=
      List.filter_eq_self.mpr
        (fun x hx => by simpa using (mem_normalizeName (hN ▸ hx)).2.1)
    have hcollapse : collapseWS N = N :=
      (collapseWSAux_eq_self N
        (fun x hx hsp => (mem_normalizeName (hN ▸ hx)).2.2 hsp)
        (chain'_normalizeName s)).1
    have htrim : trim N = N :=
      trim_eq_self (fun y hy => head?_normalizeName (hN ▸ hy))
        (fun y hy => head?_reverse_normalizeName (hN ▸ hy))
    calc normalizeName N
        = trim (collapseWS ((N.map toLowerCode).filter (fun n => decide (n ≠ 46)))) := by
          rw [normalizeName, if_neg hNe]
      _ = N := by rw [hmap, hfilter, hcollapse, htrim]

/-- Prefix test on code points; building block for `jsIncludes`. -/
def startsWithCodes : List Nat → List Nat → Bool
  | _, [] => true
  | [], _ :: _ => false
  | h :: t, n :: ns => h == n && startsWithCodes t ns

/-- Model of `String.prototype.includes`: the needle occurs contiguously in
the haystack. -/
def jsIncludes (hay needle : List Nat) : Bool :=
  (List.range (hay.length + 1)).any (fun i => startsWithCodes (hay.drop i) needle)

/-- Splitting on single separator characters.  Together with the
`length > 0` filter in `splitTokens` this models `split(/[\s.]+/)`, since a
run of separators only contributes empty chunks, which the filter removes. -/
def jsSplitAux (p : Nat → Bool) : List Nat → List Nat → List (List Nat)
  | acc, [] => [acc.reverse]
  | acc, c :: cs =>
    if p c then acc.reverse :: jsSplitAux p [] cs else jsSplitAux p (c :: acc) cs

/-- Separator class `[\s.]` used by the matcher's token split. -/
def tokenSepP (c : Nat) : Bool := jsIsSpace c || decide (c = 46)

/-- Model of `split(/[\s.]+/).filter(w => w.length > 0)`. -/
def splitTokens (s : List Nat) : List (List Nat) :=
  (jsSplitAux tokenSepP [] s).filter (fun w => decide (0 < w.length))

/-- The `reduce` picking the longest token of the query
(src/index.js lines 142-143). -/
def longestPart (s : List Nat) : List Nat :=
  (splitTokens s).foldl
    (fun longest part => if longest.length < part.length then part else longest) []

/-- Result record of `nameMatches`; the JS field `match` is named `isMatch`
here because `match` is reserved in Lean. -/
structure NameMatchResult where
  isMatch : Bool
  score : ℚ
  matchedPart : List Nat
deriving DecidableEq

/-- The `{ match: false, score: 0, matchedPart: '' }` literal. -/
def noMatchRes : NameMatchResult := ⟨false, 0, []⟩

/-- Model of `nameMatches` (src/index.js lines 121-190; the acceptance floor
in this variant is 30 for both scoring branches).  `cleanSearch`/`cleanRecord`
(`.trim()`) are inlined as `trim` applied before `normalizeName`. -/
def nameMatches (searchName recordName : List Nat) : NameMatchResult :=
  if searchName = [] ∨ recordName = [] then noMatchRes
  else
    let normalizedSearch := normalizeName (trim searchName)
    let normalizedRecord := normalizeName (trim recordName)
    if normalizedSearch = normalizedRecord then ⟨true, 100, recordName⟩
    else
      let recordParts := splitTokens normalizedRecord
      let longestSearchPart := longestPart normalizedSearch
      if longestSearchPart.length < 3 then noMatchRes
      else if (recordParts.any fun rp =>
          jsIncludes rp longestSearchPart || jsIncludes longestSearchPart rp) = false then
        noMatchRes
      else
        let score1 : ℚ :=
          min 100 (((normalizedSearch.length : ℚ) / (normalizedRecord.length : ℚ)) * 100)
        if jsIncludes normalizedRecord normalizedSearch = true ∧ 30 ≤ score1 then
          ⟨true, min score1 100, recordName⟩
        else
          let mainPartMatchLength :=
            (recordParts.filter fun rp =>
              jsIncludes rp longestSearchPart || jsIncludes longestSearchPart rp).foldl
              (fun mx rp => max mx rp.length) 0
          let score2 : ℚ :=
            min 100 (((longestSearchPart.length : ℚ) /
              ((max normalizedRecord.length longestSearchPart.length : Nat) : ℚ)) * 100)
          if 4 ≤ longestSearchPart.length ∧ longestSearchPart.length ≤ mainPartMatchLength
              ∧ 30 ≤ score2 then
            ⟨true, min score2 100, recordName⟩
          else noMatchRes

/-- C1 (amended).  If the longest token of the normalized query has fewer
than 3 characters and the two inputs do not normalize to the same string
(so the exact-match branch does not fire), `nameMatches` returns no match
with score 0.  The claim as frozen, quantified over every candidate, fails
on the exact-match branch (see the counterexample). -/
theorem nameMatches_short_token_rejects (searchName recordName : List Nat)
    (hlen : (longestPart (normalizeName (trim searchName))).length < 3)
    (hne : normalizeName (trim searchName) ≠ normalizeName (trim recordName)) :
    nameMatches searchName recordName = noMatchRes := by
  by_cases hempty : searchName = [] ∨ recordName = []
  · simp [nameMatches, hempty]
  · simp only [nameMatches]
    rw [if_neg hempty, if_neg hne, if_pos hlen]

/-- C1, falsifying instance of the frozen claim: the query `"ab"` has a
longest normalized token of length 2 < 3, yet it does match the candidate
`"ab"` (exact-match branch), with score 100. -/
theorem nameMatches_short_token_counterexample :
    (longestPart (normalizeName (trim (strToCodes "ab")))).length < 3 ∧
    nameMatches (strToCodes "ab") (strToCodes "ab") =
      ⟨true, 100, strToCodes "ab"⟩ := by
  constructor <;> decide

theorem nameMatches_short_token_rejects_witness :
    (longestPart (normalizeName (trim (strToCodes "ab")))).length < 3 ∧
    normalizeName (trim (strToCodes "ab")) ≠ normalizeName (trim (strToCodes "xyz")) ∧
    nameMatches (strToCodes "ab") (strToCodes "xyz") = noMatchRes :=
  ⟨by decide, by decide, nameMatches_short_token_rejects _ _ (by decide) (by decide)⟩

/-- C5 (amended).  For every non-empty string, matching the string against
itself takes the exact-match branch: match, score 100.  The frozen claim,
over every string, fails at the empty string because of the falsy-argument
guard (see the counterexample). -/
theorem nameMatches_self (s : List Nat) (hs : s ≠ []) :
    nameMatches s s = ⟨true, 100, s⟩ := by
  simp only [nameMatches]
  rw [if_neg (by simp [hs])]
  simp

/-- C5, falsifying instance of the frozen claim: the empty string matched
against itself yields no match and score 0, not a 100-score match. -/
theorem nameMatches_self_empty_counterexample :
    (nameMatches [] []).isMatch = false ∧ (nameMatches [] []).score = 0 := by
  constructor <;> decide

theorem nameMatches_self_witness :
    nameMatches (strToCodes "kowsalya") (strToCodes "kowsalya") =
      ⟨true, 100, strToCodes "kowsalya"⟩ :=
  nameMatches_self _ (by decide)

/-- C6.  When the main-part gate passes and the full normalized candidate
contains the full normalized query as a substring, the matcher returns a
match whose score is min(100, 100 · |query| / |candidate|) whenever that
score reaches the configured floor (30 in src/index.js); and the two
spec examples hold: "kowsalya" matches "D.KOWSALYA" with score ≥ 60, while
"ko" does not match "D.KOWSALYA". -/
theorem nameMatches_containment_spec :
    (∀ searchName recordName : List Nat, searchName ≠ [] → recordName ≠ [] →
      normalizeName (trim searchName) ≠ normalizeName (trim recordName) →
      ¬ (longestPart (normalizeName (trim searchName))).length < 3 →
      ((splitTokens (normalizeName (trim recordName))).any fun rp =>
          jsIncludes rp (longestPart (normalizeName (trim searchName))) ||
          jsIncludes (longestPart (normalizeName (trim searchName))) rp) = true →
      jsIncludes (normalizeName (trim recordName)) (normalizeName (trim searchName)) = true →
      30 ≤ min 100 ((((normalizeName (trim searchName)).length : ℚ) /
          ((normalizeName (trim recordName)).length : ℚ)) * 100) →
      nameMatches searchName recordName =
        ⟨true, min 100 ((((normalizeName (trim searchName)).length : ℚ) /
          ((normalizeName (trim recordName)).length : ℚ)) * 100), recordName⟩) ∧
    nameMatches (strToCodes "ko") (strToCodes "D.KOWSALYA") = noMatchRes ∧
    (nameMatches (strToCodes "kowsalya") (strToCodes "D.KOWSALYA")).isMatch = true ∧
    60 ≤ (nameMatches (strToCodes "kowsalya") (strToCodes "D.KOWSALYA")).score := by
  have hgen : ∀ searchName recordName : List Nat, searchName ≠ [] → recordName ≠ [] →
      normalizeName (trim searchName) ≠ normalizeName (trim recordName) →
      ¬ (longestPart (normalizeName (trim searchName))).length < 3 →
      ((splitTokens (normalizeName (trim recordName))).any fun rp =>
          jsIncludes rp (longestPart (normalizeName (trim searchName))) ||
          jsIncludes (longestPart (normalizeName (trim searchName))) rp) = true →
      jsIncludes (normalizeName (trim recordName)) (normalizeName (trim searchName)) = true →
      30 ≤ min 100 ((((normalizeName (trim searchName)).length : ℚ) /
          ((normalizeName (trim recordName)).length : ℚ)) * 100) →
      nameMatches searchName recordName =
        ⟨true, min 100 ((((normalizeName (trim searchName)).length : ℚ) /
          ((normalizeName (trim recordName)).length : ℚ)) * 100), recordName⟩ := by
    intro searchName recordName hse hre hne hlen hgate hinc hscore
    simp only [nameMatches]
    rw [if_neg (by simp [hse, hre]), if_neg hne, if_neg hlen,
      if_neg (by simp [hgate]), if_pos ⟨hinc, hscore⟩,
      min_eq_left (min_le_left _ _)]
  have hlen8 : (normalizeName (trim (strToCodes "kowsalya"))).length = 8 := by decide
  have hlen9 : (normalizeName (trim (strToCodes "D.KOWSALYA"))).length = 9 := by decide
  have hsc : 30 ≤ min 100 ((((normalizeName (trim (strToCodes "kowsalya"))).length : ℚ) /
      ((normalizeName (trim (strToCodes "D.KOWSALYA"))).length : ℚ)) * 100) := by
    rw [hlen8, hlen9]
    norm_num [min_def]
  have hres := hgen (strToCodes "kowsalya") (strToCodes "D.KOWSALYA") (by decide) (by decide)
    (by decide) (by decide) (by decide) (by decide) hsc
  refine ⟨hgen, ?_, ?_, ?_⟩
  · simp only [nameMatches]
    rw [if_neg (by decide), if_neg (by decide), if_pos (by decide)]
  · rw [hres]
  · rw [hres, hlen8, hlen9]
    norm_num [min_def]

/-- A parsed certificate row (src/index.js lines 50-56). -/
structure Record where
  name : List Nat
  gender : List Nat
  dateOfDeath : List Nat
  fathersName : List Nat
  mothersName : List Nat
deriving DecidableEq

/-- Trimmed text of the i-th cell of a row, or empty when the cell is absent:
`$row.find('td:nth-child(i+1)').text().trim()` resp.
`cells[i]?.textContent?.trim() || ''`.  The DOM is abstracted to the selected
table rows, each a list of cell texts. -/
def cellTextAt (row : List (List Nat)) (i : Nat) : List Nat := trim (row.getD i [])

/-- Row-acceptance test on the primary name field
(`name && name !== '.......' && name !== '...' && name.length > 0`). -/
def keepName (name : List Nat) : Bool :=
  decide (name ≠ []) && decide (name ≠ strToCodes ".......") &&
    decide (name ≠ strToCodes "...") && decide (0 < name.length)

/-- The record built from a row's cells 2..6. -/
def toRecord (row : List (List Nat)) : Record :=
  ⟨cellTextAt row 1, cellTextAt row 2, cellTextAt row 3, cellTextAt row 4, cellTextAt row 5⟩

/-- Model of `parseCertificateData` in src/index.js lines 21-62 (cheerio
variant).  Note: this variant has no column-count check. -/
def parseCertificateData (rows : List (List (List Nat))) : List Record :=
  rows.filterMap fun row =>
    if keepName (cellTextAt row 1) = true then some (toRecord row) else none

/-- Model of `parseCertificateData` in src/worker.js lines 32-72 (linkedom
variant), which additionally requires `cells.length >= 6`. -/
def parseCertificateDataWorker (rows : List (List (List Nat))) : List Record :=
  rows.filterMap fun row =>
    if 6 ≤ row.length then
      (if keepName (cellTextAt row 1) = true then some (toRecord row) else none)
    else none

/-- C4 (amended).  The worker variant yields a record for a row exactly when
the row has at least 6 cells and its primary name field is non-empty and not
a placeholder, preserving row order; the index.js variant applies the same
name test but no column minimum (see the counterexample).  The spec's two
examples hold for the worker variant. -/
theorem parseCertificateData_spec :
    (∀ rows : List (List (List Nat)), parseCertificateDataWorker rows =
      (rows.filter fun row => decide (6 ≤ row.length) && keepName (cellTextAt row 1)).map
        toRecord) ∧
    (∀ rows : List (List (List Nat)), parseCertificateData rows =
      (rows.filter fun row => keepName (cellTextAt row 1)).map toRecord) ∧
    parseCertificateDataWorker
      [[strToCodes "1", strToCodes ".......", strToCodes "M", strToCodes "2024-01-01",
        strToCodes "X", strToCodes "Y"]] = [] ∧
    parseCertificateDataWorker
      [[strToCodes "1", strToCodes "Asha", strToCodes "F", strToCodes "2024-01-01",
        strToCodes "Raj", strToCodes "Devi"]] =
      [⟨strToCodes "Asha", strToCodes "F", strToCodes "2024-01-01",
        strToCodes "Raj", strToCodes "Devi"⟩] := by
  refine ⟨?_, ?_, by decide, by decide⟩
  · intro rows
    induction rows with
    | nil => rfl
    | cons r rs ih =>
      simp only [parseCertificateDataWorker, List.filterMap_cons, List.filter_cons] at *
      by_cases h6 : 6 ≤ r.length
      · by_cases hk : keepName (cellTextAt r 1) = true
        · simp [h6, hk, ih]
        · simp [h6, hk, ih]
      · simp [h6, ih]
  · intro rows
    induction rows with
    | nil => rfl
    | cons r rs ih =>
      simp only [parseCertificateData, List.filterMap_cons, List.filter_cons] at *
      by_cases hk : keepName (cellTextAt r 1) = true
      · simp [hk, ih]
      · simp [hk, ih]

/-- The capped `allRecords` update (src/index.js lines 943-951 on the normal
success path, and lines 1164-1171 in the error-retry pass): push the unit's
records, then `if (length > 1000) slice(-1000)`. -/
def appendRaw {α : Type} (buffer newRecords : List α) : List α :=
  let combined := buffer ++ newRecords
  if 1000 < combined.length then combined.drop (combined.length - 1000) else combined

/-- The two shapes of a per-unit `allRecords` update in `runPollCycle`: the
normal success path and the error-retry pass push then cap, but the
session-expiry retry path (src/index.js lines 974-978, exited through the
`continue` at line 1044; likewise src/worker.js lines 454-458) pushes the
retried unit's records with no `slice(-1000)`. -/
inductive RawUpdate (α : Type)
  | capped (recs : List α)
  | uncapped (recs : List α)

/-- The records appended by an update, regardless of capping. -/
def RawUpdate.recs {α : Type} : RawUpdate α → List α
  | .capped rs => rs
  | .uncapped rs => rs

/-- Apply one unit's `allRecords` update to the buffer. -/
def applyRawUpdate {α : Type} (buffer : List α) : RawUpdate α → List α
  | .capped rs => appendRaw buffer rs
  | .uncapped rs => buffer ++ rs

/-- `slice(-n)`: the most recent `n` entries of a list. -/
def lastN {α : Type} (n : Nat) (l : List α) : List α := l.drop (l.length - n)

theorem appendRaw_eq_lastN {α : Type} (b r : List α) :
    appendRaw b r = lastN 1000 (b ++ r) := by
  simp only [appendRaw, lastN]
  by_cases h : 1000 < (b ++ r).length
  · rw [if_pos h]
  · rw [if_neg h]
    have h0 : (b ++ r).length - 1000 = 0 := by omega
    rw [h0, List.drop_zero]

theorem lastN_append_lastN {α : Type} (n : Nat) (x y : List α) :
    lastN n (lastN n x ++ y) = lastN n (x ++ y) := by
  by_cases hx : x.length ≤ n
  · have h0 : x.length - n = 0 := by omega
    simp [lastN, h0]
  · push_neg at hx
    simp only [lastN, List.length_append, List.length_drop]
    rw [List.drop_append_eq_append_drop, List.drop_append_eq_append_drop, List.drop_drop]
    simp only [List.length_drop]
    congr 1
    · congr 1
      omega
    · congr 1
      omega

theorem length_lastN_le {α : Type} (n : Nat) (l : List α) : (lastN n l).length ≤ n := by
  simp only [lastN, List.length_drop]
  omega

theorem foldl_appendRaw {α : Type} :
    ∀ (bs : List (List α)) (acc : List α),
      List.foldl appendRaw (lastN 1000 acc) bs = lastN 1000 (acc ++ bs.flatten) := by
  intro bs
  induction bs with
  | nil => intro acc; simp
  | cons b bs' ih =>
    intro acc
    calc List.foldl appendRaw (lastN 1000 acc) (b :: bs')
        = List.foldl appendRaw (appendRaw (lastN 1000 acc) b) bs' := by
          rw [List.foldl_cons]
      _ = List.foldl appendRaw (lastN 1000 (acc ++ b)) bs' := by
          rw [appendRaw_eq_lastN, lastN_append_lastN]
      _ = lastN 1000 ((acc ++ b) ++ bs'.flatten) := ih (acc ++ b)
      _ = lastN 1000 (acc ++ (b :: bs').flatten) := by simp

theorem length_appendRaw_le {α : Type} (b r : List α) :
    (appendRaw b r).length ≤ 1000 := by
  rw [appendRaw_eq_lastN]
  exact length_lastN_le _ _

theorem suffix_appendRaw {α : Type} (b r : List α) : appendRaw b r <:+ b ++ r := by
  rw [appendRaw_eq_lastN, lastN]
  exact ⟨(b ++ r).take ((b ++ r).length - 1000), List.take_append_drop _ _⟩

theorem suffix_append_right {α : Type} {b s : List α} (h : b <:+ s) (r : List α) :
    b ++ r <:+ s ++ r := by
  rcases h with ⟨t, ht⟩
  exact ⟨t, by rw [← List.append_assoc, ht]⟩

theorem foldl_applyRawUpdate_suffix {α : Type} :
    ∀ (updates : List (RawUpdate α)) (acc s : List α), acc <:+ s →
      updates.foldl applyRawUpdate acc <:+
        s ++ (updates.map RawUpdate.recs).flatten := by
  intro updates
  induction updates with
  | nil => intro acc s h; simpa using h
  | cons u us ih =>
    intro acc s h
    rw [List.foldl_cons]
    have hstep : applyRawUpdate acc u <:+ s ++ u.recs := by
      cases u with
      | capped rs => exact (suffix_appendRaw acc rs).trans (suffix_append_right h rs)
      | uncapped rs => exact suffix_append_right h rs
    have hrec := ih (applyRawUpdate acc u) (s ++ u.recs) hstep
    simpa [RawUpdate.recs, List.append_assoc] using hrec

theorem foldl_capped_updates {α : Type} (batches : List (List α)) :
    (batches.map RawUpdate.capped).foldl applyRawUpdate ([] : List α) =
      batches.foldl appendRaw [] := by
  rw [List.foldl_map]
  rfl

/-- C7 (amended).  Every capped update (normal success path and error-retry
pass) leaves at most 1000 entries, and over a run of capped updates only,
the buffer is exactly the most recently appended 1000 records — appending 1500
in one capped update leaves exactly the last 1000.  Eviction is always
strictly FIFO: after any update sequence the buffer is a contiguous suffix
of the full append stream.  But a unit that goes through the session-expiry
retry path appends with no cap, so the buffer can exceed 1000 entries (see
the counterexample). -/
theorem allRecords_fifo_spec :
    (∀ (α : Type) (buffer recs : List α), (appendRaw buffer recs).length ≤ 1000) ∧
    (∀ (α : Type) (batches : List (List α)),
      (batches.map RawUpdate.capped).foldl applyRawUpdate ([] : List α) =
        lastN 1000 batches.flatten) ∧
    (∀ (α : Type) (updates : List (RawUpdate α)),
      updates.foldl applyRawUpdate ([] : List α) <:+
        (updates.map RawUpdate.recs).flatten) ∧
    appendRaw ([] : List Nat) (List.range 1500) = (List.range 1500).drop 500 := by
  refine ⟨?_, ?_, ?_, ?_⟩
  · intro α b r
    exact length_appendRaw_le b r
  · intro α batches
    rw [foldl_capped_updates]
    have hnil : ([] : List α) = lastN 1000 ([] : List α) := by simp [lastN]
    rw [hnil, foldl_appendRaw]
    simp
  · intro α updates
    have h := foldl_applyRawUpdate_suffix updates [] [] (List.suffix_refl [])
    simpa using h
  · rw [appendRaw_eq_lastN]
    simp [lastN]

/-- C7, falsifying instance of the frozen claim: a unit of a no-query job
that hits the session-expiry retry path appends without the cap — after a
capped append of 1000 records, the uncapped retry append of 500 more leaves
a buffer of 1500 entries, exceeding the claimed 1000 bound. -/
theorem allRecords_uncapped_counterexample :
    (applyRawUpdate
        (applyRawUpdate ([] : List Nat) (RawUpdate.capped (List.range 1000)))
        (RawUpdate.uncapped (List.range 500))).length = 1500 ∧
    ¬ (applyRawUpdate
        (applyRawUpdate ([] : List Nat) (RawUpdate.capped (List.range 1000)))
        (RawUpdate.uncapped (List.range 500))).length ≤ 1000 := by
  have h : (applyRawUpdate
      (applyRawUpdate ([] : List Nat) (RawUpdate.capped (List.range 1000)))
      (RawUpdate.uncapped (List.range 500))).length = 1500 := by
    simp [applyRawUpdate, appendRaw]
  exact ⟨h, by rw [h]; omega⟩

/-- Every `nameMatches` result is either the no-match literal or a match
whose score is at least the acceptance floor 30. -/
theorem nameMatches_shape (q c : List Nat) :
    nameMatches q c = noMatchRes ∨
      ((nameMatches q c).isMatch = true ∧ 30 ≤ (nameMatches q c).score) := by
  simp only [nameMatches]
  split_ifs with h1 h2 h3 h4 h5 h6
  · exact Or.inl rfl
  · exact Or.inr ⟨rfl, by norm_num⟩
  · exact Or.inl rfl
  · exact Or.inl rfl
  · refine Or.inr ⟨rfl, ?_⟩
    rw [min_eq_left (min_le_left _ _)]
    exact h5.2
  · refine Or.inr ⟨rfl, ?_⟩
    rw [min_eq_left (min_le_left _ _)]
    exact h6.2.2
  · exact Or.inl rfl

theorem nameMatches_score_nonneg (q c : List Nat) : 0 ≤ (nameMatches q c).score := by
  rcases nameMatches_shape q c with h | ⟨_, h⟩
  · rw [h]; norm_num [noMatchRes]
  · linarith

theorem nameMatches_no_match_score (q c : List Nat)
    (h : (nameMatches q c).isMatch = false) : (nameMatches q c).score = 0 := by
  rcases nameMatches_shape q c with h' | ⟨h', _⟩
  · rw [h']; rfl
  · rw [h'] at h; cases h

/-- Which of the three name-bearing fields the engine reports. -/
inductive MatchedField
  | name
  | fathersName
  | mothersName
deriving DecidableEq

/-- The object built for a matching record (src/index.js lines 886-892). -/
structure MatchedRecord where
  base : Record
  matchScore : ℚ
  matchedField : MatchedField
  matchedPart : List Nat
  matchedSearchName : List Nat
deriving DecidableEq

/-- `[nameMatch, fatherMatch, motherMatch].filter(m => m.match)` followed by
the `reduce` keeping the strictly greater score (first maximum wins). -/
def bestOfThree (nm fm mm : NameMatchResult) : Option NameMatchResult :=
  match [nm, fm, mm].filter (fun m => m.isMatch) with
  | [] => none
  | m :: ms =>
    some (ms.foldl (fun best current =>
      if current.score > best.score then current else best) m)

/-- One step of the loop over `searchNames` keeping the best overall match
and the query that produced it (strict improvement replaces, so the earliest
query wins ties). -/
def bestStep (r : Record) (acc : Option (NameMatchResult × List Nat))
    (searchName : List Nat) : Option (NameMatchResult × List Nat) :=
  match bestOfThree (nameMatches searchName r.name)
      (nameMatches searchName r.fathersName)
      (nameMatches searchName r.mothersName) with
  | none => acc
  | some best =>
    match acc with
    | none => some (best, searchName)
    | some (bo, bs) =>
      if best.score > bo.score then some (best, searchName) else some (bo, bs)

/-- The overall best match of a record across all configured queries
(src/index.js lines 855-877). -/
def bestOverall (searchNames : List (List Nat)) (r : Record) :
    Option (NameMatchResult × List Nat) :=
  searchNames.foldl (bestStep r) none

/-- Per-record matching of the poll cycle (src/index.js lines 854-892): the
mapped value for one record, `none` when the record matches no query.  Note
`matchedField` is recomputed from the winning query as the first field whose
matcher reports a match, in the order name, fathersName, mothersName. -/
def processRecord (searchNames : List (List Nat)) (r : Record) :
    Option MatchedRecord :=
  match bestOverall searchNames r with
  | none => none
  | some (best, bs) =>
    some ⟨r, best.score,
      if (nameMatches bs r.name).isMatch then .name
      else if (nameMatches bs r.fathersName).isMatch then .fathersName
      else .mothersName,
      best.matchedPart, bs⟩

theorem bestOfThree_some_score (nm fm mm b : NameMatchResult)
    (hn0 : nm.isMatch = false → nm.score = 0)
    (hf0 : fm.isMatch = false → fm.score = 0)
    (hm0 : mm.isMatch = false → mm.score = 0)
    (hnn : 0 ≤ nm.score) (hfn : 0 ≤ fm.score) (hmn : 0 ≤ mm.score)
    (h : bestOfThree nm fm mm = some b) :
    b.score = max nm.score (max fm.score mm.score) := by
  cases hn : nm.isMatch <;> cases hf : fm.isMatch <;> cases hm : mm.isMatch <;>
    simp [bestOfThree, hn, hf, hm] at h <;> subst h <;>
    (try have e1 := hn0 hn) <;> (try have e2 := hf0 hf) <;> (try have e3 := hm0 hm) <;>
    simp only [max_def] <;> split_ifs <;> linarith

theorem bestOverall_some (r : Record) (sns : List (List Nat)) :
    ∀ (acc : Option (NameMatchResult × List Nat)),
      (∀ b s, acc = some (b, s) →
        bestOfThree (nameMatches s r.name) (nameMatches s r.fathersName)
          (nameMatches s r.mothersName) = some b) →
      ∀ b s, sns.foldl (bestStep r) acc = some (b, s) →
        bestOfThree (nameMatches s r.name) (nameMatches s r.fathersName)
          (nameMatches s r.mothersName) = some b := by
  induction sns with
  | nil => intro acc hacc b s h; exact hacc b s h
  | cons sn sns' ih =>
    intro acc hacc b s h
    rw [List.foldl_cons] at h
    refine ih (bestStep r acc sn) ?_ b s h
    intro b' s' hstep
    rcases hbt : bestOfThree (nameMatches sn r.name) (nameMatches sn r.fathersName)
        (nameMatches sn r.mothersName) with _ | best
    · have hred : bestStep r acc sn = acc := by simp [bestStep, hbt]
      rw [hred] at hstep
      exact hacc b' s' hstep
    · rcases acc with _ | ⟨bo, bs⟩
      · have hred : bestStep r none sn = some (best, sn) := by simp [bestStep, hbt]
        rw [hred] at hstep
        simp only [Option.some.injEq, Prod.mk.injEq] at hstep
        obtain ⟨h1, h2⟩ := hstep
        subst h1; subst h2
        exact hbt
      · by_cases hcmp : best.score > bo.score
        · have hred : bestStep r (some (bo, bs)) sn = some (best, sn) := by
            simp [bestStep, hbt, hcmp]
          rw [hred] at hstep
          simp only [Option.some.injEq, Prod.mk.injEq] at hstep
          obtain ⟨h1, h2⟩ := hstep
          subst h1; subst h2
          exact hbt
        · have hred : bestStep r (some (bo, bs)) sn = some (bo, bs) := by
            simp [bestStep, hbt, hcmp]
          rw [hred] at hstep
          exact hacc b' s' hstep

/-- C2 (amended).  For every record that matches some query, `matchScore` is
the best score among the three fields for the winning query, but
`matchedField` is the first field, in the order name → fathersName →
mothersName, whose matcher reports any match for that query — not
necessarily the best-scoring field (see the counterexample). -/
theorem processRecord_spec (searchNames : List (List Nat)) (r : Record)
    (m : MatchedRecord) (h : processRecord searchNames r = some m) :
    m.matchScore = max (nameMatches m.matchedSearchName r.name).score
      (max (nameMatches m.matchedSearchName r.fathersName).score
        (nameMatches m.matchedSearchName r.mothersName).score) ∧
    m.matchedField =
      (if (nameMatches m.matchedSearchName r.name).isMatch then .name
       else if (nameMatches m.matchedSearchName r.fathersName).isMatch then .fathersName
       else .mothersName) := by
  simp only [processRecord] at h
  rcases hbo : bestOverall searchNames r with _ | ⟨best, bs⟩
  · rw [hbo] at h; cases h
  · rw [hbo] at h
    simp only [Option.some.injEq] at h
    have hb3 : bestOfThree (nameMatches bs r.name) (nameMatches bs r.fathersName)
        (nameMatches bs r.mothersName) = some best :=
      bestOverall_some r searchNames none (by intro b s hb; cases hb) best bs hbo
    subst h
    refine ⟨?_, rfl⟩
    exact bestOfThree_some_score _ _ _ _
      (nameMatches_no_match_score bs r.name)
      (nameMatches_no_match_score bs r.fathersName)
      (nameMatches_no_match_score bs r.mothersName)
      (nameMatches_score_nonneg bs r.name)
      (nameMatches_score_nonneg bs r.fathersName)
      (nameMatches_score_nonneg bs r.mothersName) hb3

theorem nameMatches_abcd_name :
    nameMatches (strToCodes "abcd") (strToCodes "abcdefghij") =
      ⟨true, 40, strToCodes "abcdefghij"⟩ := by
  have hl4 : (normalizeName (trim (strToCodes "abcd"))).length = 4 := by decide
  have hl10 : (normalizeName (trim (strToCodes "abcdefghij"))).length = 10 := by decide
  have hsc : 30 ≤ min 100 ((((normalizeName (trim (strToCodes "abcd"))).length : ℚ) /
      ((normalizeName (trim (strToCodes "abcdefghij"))).length : ℚ)) * 100) := by
    rw [hl4, hl10]
    norm_num [min_def]
  simp only [nameMatches]
  rw [if_neg (by decide), if_neg (by decide), if_neg (by decide), if_neg (by decide),
    if_pos ⟨by decide, hsc⟩, min_eq_left (min_le_left _ _)]
  simp only [NameMatchResult.mk.injEq, hl4, hl10]
  norm_num [min_def]

theorem nameMatches_abcd_father :
    nameMatches (strToCodes "abcd") (strToCodes "abcd") =
      ⟨true, 100, strToCodes "abcd"⟩ := by
  simp only [nameMatches]
  rw [if_neg (by decide)]
  simp

theorem processRecord_abcd_eval :
    processRecord [strToCodes "abcd"]
      ⟨strToCodes "abcdefghij", [], [], strToCodes "abcd", []⟩ =
      some ⟨⟨strToCodes "abcdefghij", [], [], strToCodes "abcd", []⟩, 100,
        MatchedField.name, strToCodes "abcd", strToCodes "abcd"⟩ := by
  have hmother : nameMatches (strToCodes "abcd") ([] : List Nat) = noMatchRes := by decide
  have hb3 : bestOfThree ⟨true, 40, strToCodes "abcdefghij"⟩
      ⟨true, 100, strToCodes "abcd"⟩ noMatchRes =
      some ⟨true, 100, strToCodes "abcd"⟩ := by
    norm_num [bestOfThree, noMatchRes]
  have hbo : bestOverall [strToCodes "abcd"]
      ⟨strToCodes "abcdefghij", [], [], strToCodes "abcd", []⟩ =
      some (⟨true, 100, strToCodes "abcd"⟩, strToCodes "abcd") := by
    simp only [bestOverall, List.foldl_cons, List.foldl_nil, bestStep,
      nameMatches_abcd_name, nameMatches_abcd_father, hmother, hb3]
  simp [processRecord, hbo, nameMatches_abcd_name]

/-- C2, falsifying instance of the frozen claim: for the query "abcd" and a
record whose name field scores 40 but whose father field scores 100, the
engine reports matchScore 100 together with matchedField `name` — the field
that produced the best score is `fathersName`, not the reported one. -/
theorem processRecord_field_counterexample :
    (nameMatches (strToCodes "abcd") (strToCodes "abcdefghij")).score = 40 ∧
    (nameMatches (strToCodes "abcd") (strToCodes "abcd")).score = 100 ∧
    processRecord [strToCodes "abcd"]
      ⟨strToCodes "abcdefghij", [], [], strToCodes "abcd", []⟩ =
      some ⟨⟨strToCodes "abcdefghij", [], [], strToCodes "abcd", []⟩, 100,
        MatchedField.name, strToCodes "abcd", strToCodes "abcd"⟩ :=
  ⟨by rw [nameMatches_abcd_name], by rw [nameMatches_abcd_father], processRecord_abcd_eval⟩

theorem processRecord_spec_witness :
    (⟨⟨strToCodes "abcdefghij", [], [], strToCodes "abcd", []⟩, 100,
        MatchedField.name, strToCodes "abcd", strToCodes "abcd"⟩ : MatchedRecord).matchScore =
      max (nameMatches (strToCodes "abcd") (strToCodes "abcdefghij")).score
        (max (nameMatches (strToCodes "abcd") (strToCodes "abcd")).score
          (nameMatches (strToCodes "abcd") ([] : List Nat)).score) ∧
    (⟨⟨strToCodes "abcdefghij", [], [], strToCodes "abcd", []⟩, 100,
        MatchedField.name, strToCodes "abcd", strToCodes "abcd"⟩ : MatchedRecord).matchedField =
      (if (nameMatches (strToCodes "abcd") (strToCodes "abcdefghij")).isMatch then .name
       else if (nameMatches (strToCodes "abcd") (strToCodes "abcd")).isMatch then .fathersName
       else .mothersName) :=
  processRecord_spec [strToCodes "abcd"]
    ⟨strToCodes "abcdefghij", [], [], strToCodes "abcd", []⟩
    ⟨⟨strToCodes "abcdefghij", [], [], strToCodes "abcd", []⟩, 100,
      MatchedField.name, strToCodes "abcd", strToCodes "abcd"⟩
    processRecord_abcd_eval

/-- A record stored in a FoundUnit; only the fields the dedup predicate
(`r.name === record.name && r.date === record.date`) inspects. -/
structure FRec where
  name : List Nat
  date : List Nat
deriving DecidableEq

/-- The dedup key test of the merge filter. -/
def sameKey (a b : FRec) : Bool :=
  decide (a.name = b.name) && decide (a.date = b.date)

/-- `filter((record, index, self) => index === self.findIndex(r => ...))`:
keep the first occurrence of each (name, date) key; `prev` holds the already
scanned elements. -/
def dedupScan : List FRec → List FRec → List FRec
  | _, [] => []
  | prev, r :: rs =>
    if prev.any (fun p => sameKey p r) then dedupScan (prev ++ [r]) rs
    else r :: dedupScan (prev ++ [r]) rs

def dedupByKey (l : List FRec) : List FRec := dedupScan [] l

/-- One `foundDates` element (src/index.js lines 912-916); the worker retry
path builds entries without a `totalRecordsOnDate` field, hence the
`Option`. -/
structure FoundUnit where
  date : List Nat
  records : List FRec
  totalRecordsOnDate : Option Nat
deriving DecidableEq

/-- The two `foundDates` update shapes in the repository. -/
inductive FDOp
  | merge (date : List Nat) (recs : List FRec) (total : Nat)
  | replaceRetry (date : List Nat) (recs : List FRec)
deriving DecidableEq

/-- The index.js update (lines 917-934 and the analogous retry-pass blocks):
`findIndex` on the date, merge + dedup into the hit entry, else push.
Replacing the first entry with the matching date is what findIndex/set do. -/
def applyMerge : List FoundUnit → List Nat → List FRec → Nat → List FoundUnit
  | [], d, recs, tot => [⟨d, recs, some tot⟩]
  | e :: rest, d, recs, tot =>
    if e.date = d then ⟨d, dedupByKey (e.records ++ recs), some tot⟩ :: rest
    else e :: applyMerge rest d recs tot

/-- The worker.js retry-path update (src/worker.js lines 478-489): the hit
entry is replaced outright (`foundDates[existingIndex] = foundEntry`), with
no merge and no total count. -/
def applyReplaceRetry : List FoundUnit → List Nat → List FRec → List FoundUnit
  | [], d, recs => [⟨d, recs, none⟩]
  | e :: rest, d, recs =>
    if e.date = d then ⟨d, recs, none⟩ :: rest
    else e :: applyReplaceRetry rest d recs

def applyOp (fd : List FoundUnit) : FDOp → List FoundUnit
  | .merge d recs tot => applyMerge fd d recs tot
  | .replaceRetry d recs => applyReplaceRetry fd d recs

/-- A job's `foundDates` after any sequence of cycle / retry updates,
starting from the empty list it is created with. -/
def applyOps (ops : List FDOp) : List FoundUnit := ops.foldl applyOp []

theorem sameKey_iff (a b : FRec) :
    sameKey a b = true ↔ (a.name = b.name ∧ a.date = b.date) := by
  simp [sameKey]

theorem sameKey_refl (a : FRec) : sameKey a a = true := by simp [sameKey]

theorem sameKey_trans {a b c : FRec} (h1 : sameKey a b = true)
    (h2 : sameKey b c = true) : sameKey a c = true := by
  rw [sameKey_iff] at *
  exact ⟨h1.1.trans h2.1, h1.2.trans h2.2⟩

theorem mem_dates_applyMerge {d : List Nat} {recs : List FRec} {tot : Nat} :
    ∀ (fd : List FoundUnit) (x : List Nat),
      x ∈ (applyMerge fd d recs tot).map (fun u => u.date) →
      x = d ∨ x ∈ fd.map (fun u => u.date) := by
  intro fd
  induction fd with
  | nil => intro x hx; simp [applyMerge] at hx; exact Or.inl hx
  | cons e rest ih =>
    intro x hx
    by_cases he : e.date = d
    · rw [applyMerge, if_pos he] at hx
      simp only [List.map_cons, List.mem_cons] at hx ⊢
      rcases hx with hx | hx
      · exact Or.inl hx
      · exact Or.inr (Or.inr hx)
    · rw [applyMerge, if_neg he] at hx
      simp only [List.map_cons, List.mem_cons] at hx ⊢
      rcases hx with hx | hx
      · exact Or.inr (Or.inl hx)
      · rcases ih x hx with h | h
        · exact Or.inl h
        · exact Or.inr (Or.inr h)

theorem mem_dates_applyReplaceRetry {d : List Nat} {recs : List FRec} :
    ∀ (fd : List FoundUnit) (x : List Nat),
      x ∈ (applyReplaceRetry fd d recs).map (fun u => u.date) →
      x = d ∨ x ∈ fd.map (fun u => u.date) := by
  intro fd
  induction fd with
  | nil => intro x hx; simp [applyReplaceRetry] at hx; exact Or.inl hx
  | cons e rest ih =>
    intro x hx
    by_cases he : e.date = d
    · rw [applyReplaceRetry, if_pos he] at hx
      simp only [List.map_cons, List.mem_cons] at hx ⊢
      rcases hx with hx | hx
      · exact Or.inl hx
      · exact Or.inr (Or.inr hx)
    · rw [applyReplaceRetry, if_neg he] at hx
      simp only [List.map_cons, List.mem_cons] at hx ⊢
      rcases hx with hx | hx
      · exact Or.inr (Or.inl hx)
      · rcases ih x hx with h | h
        · exact Or.inl h
        · exact Or.inr (Or.inr h)

theorem datesNodup_applyMerge {d : List Nat} {recs : List FRec} {tot : Nat} :
    ∀ (fd : List FoundUnit), (fd.map (fun u => u.date)).Nodup →
      ((applyMerge fd d recs tot).map (fun u => u.date)).Nodup := by
  intro fd
  induction fd with
  | nil => intro _; simp [applyMerge]
  | cons e rest ih =>
    intro hnd
    simp only [List.map_cons, List.nodup_cons] at hnd
    by_cases he : e.date = d
    · rw [applyMerge, if_pos he]
      simp only [List.map_cons, List.nodup_cons]
      exact ⟨he ▸ hnd.1, hnd.2⟩
    · rw [applyMerge, if_neg he]
      simp only [List.map_cons, List.nodup_cons]
      refine ⟨?_, ih hnd.2⟩
      intro hmem
      rcases mem_dates_applyMerge rest e.date hmem with h | h
      · exact he h
      · exact hnd.1 h

theorem datesNodup_applyReplaceRetry {d : List Nat} {recs : List FRec} :
    ∀ (fd : List FoundUnit), (fd.map (fun u => u.date)).Nodup →
      ((applyReplaceRetry fd d recs).map (fun u => u.date)).Nodup := by
  intro fd
  induction fd with
  | nil => intro _; simp [applyReplaceRetry]
  | cons e rest ih =>
    intro hnd
    simp only [List.map_cons, List.nodup_cons] at hnd
    by_cases he : e.date = d
    · rw [applyReplaceRetry, if_pos he]
      simp only [List.map_cons, List.nodup_cons]
      exact ⟨he ▸ hnd.1, hnd.2⟩
    · rw [applyReplaceRetry, if_neg he]
      simp only [List.map_cons, List.nodup_cons]
      refine ⟨?_, ih hnd.2⟩
      intro hmem
      rcases mem_dates_applyReplaceRetry rest e.date hmem with h | h
      · exact he h
      · exact hnd.1 h

theorem dedupScan_not_sameKey_prev :
    ∀ (l prev : List FRec) (r : FRec), r ∈ dedupScan prev l →
      ∀ p ∈ prev, sameKey p r = false := by
  intro l
  induction l with
  | nil => intro prev r hr; simp [dedupScan] at hr
  | cons r0 rs ih =>
    intro prev r hr p hp
    by_cases hany : prev.any (fun q => sameKey q r0) = true
    · rw [dedupScan, if_pos hany] at hr
      exact ih (prev ++ [r0]) r hr p (List.mem_append_left _ hp)
    · rw [dedupScan, if_neg hany] at hr
      rcases List.mem_cons.mp hr with hr | hr
      · subst hr
        rcases Bool.eq_false_iff.mpr (fun hc => hany (List.any_eq_true.mpr ⟨p, hp, hc⟩)) with h
        exact h
      · exact ih (prev ++ [r0]) r hr p (List.mem_append_left _ hp)

theorem dedupScan_pairwise :
    ∀ (l prev : List FRec),
      List.Pairwise (fun a b => sameKey a b = false) (dedupScan prev l) := by
  intro l
  induction l with
  | nil => intro prev; simp [dedupScan]
  | cons r0 rs ih =>
    intro prev
    by_cases hany : prev.any (fun q => sameKey q r0) = true
    · rw [dedupScan, if_pos hany]
      exact ih (prev ++ [r0])
    · rw [dedupScan, if_neg hany]
      refine List.pairwise_cons.mpr ⟨?_, ih (prev ++ [r0])⟩
      intro b hb
      exact dedupScan_not_sameKey_prev rs (prev ++ [r0]) b hb r0
        (List.mem_append_right _ (List.mem_singleton.mpr rfl))

theorem dedupScan_retains :
    ∀ (l prev : List FRec) (r : FRec), r ∈ l →
      (∃ p ∈ prev, sameKey p r = true) ∨
      ∃ r' ∈ dedupScan prev l, sameKey r' r = true := by
  intro l
  induction l with
  | nil => intro prev r hr; simp at hr
  | cons r0 rs ih =>
    intro prev r hr
    by_cases hany : prev.any (fun q => sameKey q r0) = true
    · rw [dedupScan, if_pos hany]
      rcases List.mem_cons.mp hr with hr | hr
      · subst hr
        rcases List.any_eq_true.mp hany with ⟨q, hq, hqk⟩
        exact Or.inl ⟨q, hq, hqk⟩
      · rcases ih (prev ++ [r0]) r hr with ⟨p, hp, hpk⟩ | h
        · rcases List.mem_append.mp hp with hp | hp
          · exact Or.inl ⟨p, hp, hpk⟩
          · rcases List.any_eq_true.mp hany with ⟨q, hq, hqk⟩
            rw [List.mem_singleton.mp hp] at hpk
            exact Or.inl ⟨q, hq, sameKey_trans hqk hpk⟩
        · exact Or.inr h
    · rw [dedupScan, if_neg hany]
      rcases List.mem_cons.mp hr with hr | hr
      · subst hr
        exact Or.inr ⟨r, List.mem_cons_self _ _, sameKey_refl r⟩
      · rcases ih (prev ++ [r0]) r hr with ⟨p, hp, hpk⟩ | ⟨r', hr', hrk⟩
        · rcases List.mem_append.mp hp with hp | hp
          · exact Or.inl ⟨p, hp, hpk⟩
          · rw [List.mem_singleton.mp hp] at hpk
            exact Or.inr ⟨r0, List.mem_cons_self _ _, hpk⟩
        · exact Or.inr ⟨r', List.mem_cons_of_mem _ hr', hrk⟩

/-- C3 (amended).  After any sequence of cycle and retry updates there is at
most one FoundUnit per unit key.  The index.js merge deduplicates: a merged
record list never holds two records with the same (name, date) key, and
every merged-in record is represented in the result by a record with its
key.  The worker.js retry path, however, replaces the hit entry instead of
merging, and a freshly pushed entry is stored without in-batch
deduplication (see the counterexample). -/
theorem foundDates_merge_spec :
    (∀ ops : List FDOp, ((applyOps ops).map (fun u => u.date)).Nodup) ∧
    (∀ l : List FRec,
      List.Pairwise (fun a b => sameKey a b = false) (dedupByKey l)) ∧
    (∀ l : List FRec,
      l.all (fun r => (dedupByKey l).any (fun r' => sameKey r' r)) = true) := by
  refine ⟨?_, ?_, ?_⟩
  · intro ops
    suffices h : ∀ (ops : List FDOp) (fd : List FoundUnit),
        (fd.map (fun u => u.date)).Nodup →
        ((ops.foldl applyOp fd).map (fun u => u.date)).Nodup by
      exact h ops [] (by simp)
    intro ops
    induction ops with
    | nil => intro fd h; exact h
    | cons op ops' ih =>
      intro fd h
      rw [List.foldl_cons]
      refine ih (applyOp fd op) ?_
      cases op with
      | merge d recs tot => exact datesNodup_applyMerge fd h
      | replaceRetry d recs => exact datesNodup_applyReplaceRetry fd h
  · intro l
    exact dedupScan_pairwise l []
  · intro l
    rw [List.all_eq_true]
    intro r hr
    rcases dedupScan_retains l [] r hr with ⟨p, hp, _⟩ | ⟨r', hr', hrk⟩
    · simp at hp
    · exact List.any_eq_true.mpr ⟨r', hr', hrk⟩

/-- C3, falsifying instance of the frozen claim: re-discovering a unit key
through the worker.js retry path replaces the entry — the previously stored
record (name "a") is dropped, not retained; and a freshly pushed index.js
entry keeps an in-batch duplicate (name, date) pair. -/
theorem foundDates_replace_counterexample :
    applyOp
      (applyOp [] (FDOp.merge (strToCodes "2024-01-01")
        [⟨strToCodes "a", strToCodes "2024-01-01"⟩] 5))
      (FDOp.replaceRetry (strToCodes "2024-01-01")
        [⟨strToCodes "b", strToCodes "2024-01-01"⟩]) =
      [⟨strToCodes "2024-01-01", [⟨strToCodes "b", strToCodes "2024-01-01"⟩], none⟩] ∧
    (⟨strToCodes "a", strToCodes "2024-01-01"⟩ : FRec) ∉
      ([⟨strToCodes "b", strToCodes "2024-01-01"⟩] : List FRec) ∧
    applyOp [] (FDOp.merge (strToCodes "2024-01-01")
        [⟨strToCodes "a", strToCodes "2024-01-01"⟩,
         ⟨strToCodes "a", strToCodes "2024-01-01"⟩] 2) =
      [⟨strToCodes "2024-01-01",
        [⟨strToCodes "a", strToCodes "2024-01-01"⟩,
         ⟨strToCodes "a", strToCodes "2024-01-01"⟩], some 2⟩] := by
  refine ⟨by decide, by decide, by decide⟩

/-- Outcome of `pollForDate` as the cycle sees it: a payload, or an error
message plus the 419 `needsReinit` flag (src/index.js lines 744-774). -/
inductive FetchResult
  | ok (payload : List Nat)
  | fail (error : List Nat) (needsReinit : Bool)
deriving DecidableEq

def FetchResult.isOk : FetchResult → Bool
  | .ok _ => true
  | .fail _ _ => false

def code419 : List Nat := strToCodes "419"

/-- `result.needsReinit || result.error.includes('419')`
(src/index.js line 955). -/
def sessionExpired : FetchResult → Bool
  | .ok _ => false
  | .fail err ni => ni || jsIncludes err code419

/-- The guard at src/index.js line 1052 deciding whether a failed unit joins
the end-of-cycle retry set:
`!result.needsReinit && !result.error.includes('419')`. -/
def shouldAddRetry (err : List Nat) (ni : Bool) : Bool :=
  !ni && !(jsIncludes err code419)

/-- Instrumentation of one unit's handling: how many session
re-acquisitions and retry fetches ran, whether the unit joined the
end-of-cycle retry set, and whether an error entry was recorded. -/
structure UnitOutcome where
  reinitCalls : Nat
  retryFetches : Nat
  addedToRetrySet : Bool
  errorRecorded : Bool
deriving DecidableEq

/-- Model of the per-unit branch of `runPollCycle`
(src/index.js lines 846, 953-1064).  External effects are oracles: whether
`initializeSession` throws, and the retry fetch's result.  A session-expired
failure reinitializes once and retries once; a successful retry `continue`s
(no error recorded); otherwise control falls through to error recording,
where only non-session-expired failures join the retry set. -/
def processUnit (result : FetchResult) (reinitThrows : Bool)
    (retryResult : FetchResult) : UnitOutcome :=
  match result with
  | .ok _ => ⟨0, 0, false, false⟩
  | .fail err ni =>
    if ni || jsIncludes err code419 then
      if reinitThrows then ⟨1, 0, shouldAddRetry err ni, true⟩
      else
        match retryResult with
        | .ok _ => ⟨1, 1, false, false⟩
        | .fail _ _ => ⟨1, 1, shouldAddRetry err ni, true⟩
    else ⟨0, 0, shouldAddRetry err ni, true⟩

/-- C8.  A session-expired fetch outcome triggers exactly one session
re-acquisition and at most one retry; the unit never joins the end-of-cycle
retry set; and when the re-acquisition throws or the retry also fails, the
unit falls through to error recording. -/
theorem sessionExpired_single_retry (result : FetchResult) (reinitThrows : Bool)
    (retryResult : FetchResult) (h : sessionExpired result = true) :
    (processUnit result reinitThrows retryResult).reinitCalls = 1 ∧
    (processUnit result reinitThrows retryResult).retryFetches ≤ 1 ∧
    (processUnit result reinitThrows retryResult).addedToRetrySet = false ∧
    ((reinitThrows = true ∨ retryResult.isOk = false) →
      (processUnit result reinitThrows retryResult).errorRecorded = true) := by
  cases result with
  | ok p => simp [sessionExpired] at h
  | fail err ni =>
    simp only [sessionExpired] at h
    have hadd : shouldAddRetry err ni = false := by
      simp only [shouldAddRetry]
      cases ni with
      | true => simp
      | false =>
        simp only [Bool.false_or] at h
        simp [h]
    cases reinitThrows with
    | true => simp [processUnit, h, hadd]
    | false =>
      cases retryResult with
      | ok p => simp [processUnit, h, hadd, FetchResult.isOk]
      | fail e2 n2 => simp [processUnit, h, hadd, FetchResult.isOk]

theorem sessionExpired_single_retry_witness :
    sessionExpired (FetchResult.fail
      (strToCodes "CSRF token expired. Session needs to be reinitialized.") true) = true ∧
    (processUnit (FetchResult.fail
        (strToCodes "CSRF token expired. Session needs to be reinitialized.") true)
      false (FetchResult.fail (strToCodes "Invalid response format") false)).reinitCalls = 1 ∧
    (processUnit (FetchResult.fail
        (strToCodes "CSRF token expired. Session needs to be reinitialized.") true)
      false (FetchResult.fail (strToCodes "Invalid response format") false)).retryFetches ≤ 1 ∧
    (processUnit (FetchResult.fail
        (strToCodes "CSRF token expired. Session needs to be reinitialized.") true)
      false (FetchResult.fail (strToCodes "Invalid response format") false)).addedToRetrySet
      = false ∧
    (processUnit (FetchResult.fail
        (strToCodes "CSRF token expired. Session needs to be reinitialized.") true)
      false (FetchResult.fail (strToCodes "Invalid response format") false)).errorRecorded
      = true := by
  have h := sessionExpired_single_retry
    (FetchResult.fail
      (strToCodes "CSRF token expired. Session needs to be reinitialized.") true)
    false (FetchResult.fail (strToCodes "Invalid response format") false) (by decide)
  exact ⟨by decide, h.1, h.2.1, h.2.2.1, h.2.2.2 (Or.inr (by decide))⟩

inductive JobStatus
  | initializing
  | running
  | retryingErrors
  | stopped
  | errorState
deriving DecidableEq

/-- Observable state of one job: membership in `activeJobs`, presence of its
cookie jar, the `status` field of the (possibly detached) job object, the
checkpoint indices at which `pollForDate` ran (instrumentation), and whether
a next-cycle `setTimeout` was queued. -/
structure JobState where
  active : Bool
  jarPresent : Bool
  status : JobStatus
  fetchTimes : List Nat
  scheduledNext : Bool
deriving DecidableEq

/-- The DELETE /api/job/:jobId handler (src/index.js lines 1219-1231): on an
active job, set status `stopped`, remove it from `activeJobs` and delete its
cookie jar; otherwise respond 404 and change nothing. -/
def stopJob (s : JobState) : JobState :=
  if s.active then { s with status := .stopped, active := false, jarPresent := false }
  else s

/-- Deliver a pending stop request: the handler's mutation takes effect at
the first `activeJobs.has(jobId)` checkpoint whose index `k` is at or past
the request time. -/
def applyStopAt (stopTime : Option Nat) (k : Nat) (s : JobState) : JobState :=
  match stopTime with
  | some t => if t ≤ k then stopJob s else s
  | none => s

/-- The per-unit fetch loop of `runPollCycle` (both the date loop, lines
840-1068, and the retry loop, lines 1080-1188): before each fetch the
`if (!activeJobs.has(jobId)) break` check runs at checkpoint `k`; each
executed fetch is recorded with its checkpoint index. -/
def fetchLoop (stopTime : Option Nat) : Nat → Nat → JobState → JobState
  | _, 0, s => s
  | k, m + 1, s =>
    let s' := applyStopAt stopTime k s
    if s'.active then
      fetchLoop stopTime (k + 1) m { s' with fetchTimes := s'.fetchTimes ++ [k] }
    else s'

/-- Instrumented model of one `runPollCycle` call (src/index.js lines
829-1200) over `n` units, `r` of which failed with non-session errors and
joined `errorDatesToRetry`.  Checkpoints in source order: 0 the entry check,
1..n before each date fetch, n+1 the retry-pass guard, n+2..n+1+r before
each retry fetch, n+2+r the next-cycle scheduling guard.  After the retry
loop — even when it exits through `break` — the code sets
`job.status = 'running'` (lines 1190-1191). -/
def runPollCycleM (n r : Nat) (stopTime : Option Nat) (s0 : JobState) : JobState :=
  let s1 := applyStopAt stopTime 0 s0
  if s1.active then
    let s2 := fetchLoop stopTime 1 n { s1 with status := .running }
    let s3 := applyStopAt stopTime (n + 1) s2
    let s4 := if 0 < r ∧ s3.active then
        { (fetchLoop stopTime (n + 2) r { s3 with status := .retryingErrors }) with
          status := .running }
      else s3
    let s5 := applyStopAt stopTime (n + 2 + r) s4
    if s5.active then { s5 with scheduledNext := true } else s5
  else s1

/-- After stopping, a job is never active. -/
theorem stopJob_active (s : JobState) : (stopJob s).active = false := by
  by_cases h : s.active = true <;> simp [stopJob, h]

theorem stopJob_fetchTimes (s : JobState) : (stopJob s).fetchTimes = s.fetchTimes := by
  by_cases h : s.active = true <;> simp [stopJob, h]

theorem stopJob_scheduledNext (s : JobState) :
    (stopJob s).scheduledNext = s.scheduledNext := by
  by_cases h : s.active = true <;> simp [stopJob, h]

theorem stopJob_jar_of_active {s : JobState} (h : s.active = true) :
    (stopJob s).jarPresent = false := by
  simp [stopJob, h]

theorem stopJob_status_of_active {s : JobState} (h : s.active = true) :
    (stopJob s).status = .stopped := by
  simp [stopJob, h]

theorem stopJob_of_inactive {s : JobState} (h : s.active = false) : stopJob s = s := by
  simp [stopJob, h]

theorem applyStopAt_of_inactive {st : Option Nat} {k : Nat} {s : JobState}
    (h : s.active = false) : applyStopAt st k s = s := by
  cases st with
  | none => rfl
  | some t =>
    by_cases hk : t ≤ k
    · simp [applyStopAt, hk, stopJob_of_inactive h]
    · simp [applyStopAt, hk]

theorem applyStopAt_miss {t k : Nat} {s : JobState} (h : ¬ t ≤ k) :
    applyStopAt (some t) k s = s := by
  simp [applyStopAt, h]

theorem applyStopAt_hit {t k : Nat} {s : JobState} (h : t ≤ k) :
    applyStopAt (some t) k s = stopJob s := by
  simp [applyStopAt, h]

theorem applyStopAt_fetchTimes (st : Option Nat) (k : Nat) (s : JobState) :
    (applyStopAt st k s).fetchTimes = s.fetchTimes := by
  cases st with
  | none => rfl
  | some t =>
    by_cases hk : t ≤ k
    · simp [applyStopAt, hk, stopJob_fetchTimes]
    · simp [applyStopAt, hk]

theorem applyStopAt_scheduledNext (st : Option Nat) (k : Nat) (s : JobState) :
    (applyStopAt st k s).scheduledNext = s.scheduledNext := by
  cases st with
  | none => rfl
  | some t =>
    by_cases hk : t ≤ k
    · simp [applyStopAt, hk, stopJob_scheduledNext]
    · simp [applyStopAt, hk]

/-- A state whose job was removed also has its cookie jar removed. -/
def Clean (s : JobState) : Prop := s.active = false → s.jarPresent = false

theorem clean_stopJob {s : JobState} (h : Clean s) : Clean (stopJob s) := by
  by_cases ha : s.active = true
  · intro _
    exact stopJob_jar_of_active ha
  · rw [stopJob_of_inactive (by simpa using ha)]
    exact h

theorem clean_applyStopAt {st : Option Nat} {k : Nat} {s : JobState}
    (h : Clean s) : Clean (applyStopAt st k s) := by
  cases st with
  | none => exact h
  | some t =>
    by_cases hk : t ≤ k
    · rw [applyStopAt_hit hk]
      exact clean_stopJob h
    · rw [applyStopAt_miss hk]
      exact h

theorem clean_fetchLoop (st : Option Nat) :
    ∀ (m k : Nat) (s : JobState), Clean s → Clean (fetchLoop st k m s) := by
  intro m
  induction m with
  | zero => intro k s h; exact h
  | succ m ih =>
    intro k s h
    rw [fetchLoop]
    by_cases ha : (applyStopAt st k s).active = true
    · rw [if_pos ha]
      refine ih (k + 1) _ ?_
      intro hact
      exact (clean_applyStopAt h) hact
    · rw [if_neg ha]
      exact clean_applyStopAt h

theorem fetchLoop_scheduledNext (st : Option Nat) :
    ∀ (m k : Nat) (s : JobState),
      (fetchLoop st k m s).scheduledNext = s.scheduledNext := by
  intro m
  induction m with
  | zero => intro k s; rfl
  | succ m ih =>
    intro k s
    rw [fetchLoop]
    by_cases ha : (applyStopAt st k s).active = true
    · rw [if_pos ha, ih]
      exact applyStopAt_scheduledNext st k s
    · rw [if_neg ha]
      exact applyStopAt_scheduledNext st k s

theorem fetchLoop_times (t : Nat) :
    ∀ (m k : Nat) (s : JobState) (x : Nat),
      x ∈ (fetchLoop (some t) k m s).fetchTimes → x ∈ s.fetchTimes ∨ x < t := by
  intro m
  induction m with
  | zero => intro k s x hx; exact Or.inl hx
  | succ m ih =>
    intro k s x hx
    rw [fetchLoop] at hx
    by_cases hk : t ≤ k
    · rw [applyStopAt_hit hk] at hx
      rw [if_neg (by simp [stopJob_active])] at hx
      rw [stopJob_fetchTimes] at hx
      exact Or.inl hx
    · rw [applyStopAt_miss hk] at hx
      by_cases ha : s.active = true
      · rw [if_pos ha] at hx
        rcases ih (k + 1) _ x hx with h | h
        · rcases List.mem_append.mp h with h | h
          · exact Or.inl h
          · rw [List.mem_singleton.mp h]
            exact Or.inr (by omega)
        · exact Or.inr h
      · rw [if_neg ha] at hx
        exact Or.inl hx

theorem fetchLoop_stopped (t : Nat) :
    ∀ (m k : Nat) (s : JobState), s.active = true → k ≤ t → t < k + m →
      (fetchLoop (some t) k m s).active = false ∧
      (fetchLoop (some t) k m s).status = .stopped ∧
      (fetchLoop (some t) k m s).jarPresent = false := by
  intro m
  induction m with
  | zero => intro k s _ h1 h2; omega
  | succ m ih =>
    intro k s hact h1 h2
    rw [fetchLoop]
    by_cases hk : t ≤ k
    · rw [applyStopAt_hit hk, if_neg (by simp [stopJob_active])]
      exact ⟨stopJob_active s, stopJob_status_of_active hact, stopJob_jar_of_active hact⟩
    · rw [applyStopAt_miss hk, if_pos hact]
      exact ih (k + 1) _ hact (by omega) (by omega)

theorem fetchLoop_no_stop (t : Nat) :
    ∀ (m k : Nat) (s : JobState), k + m ≤ t →
      (fetchLoop (some t) k m s).active = s.active ∧
      (fetchLoop (some t) k m s).status = s.status ∧
      (fetchLoop (some t) k m s).jarPresent = s.jarPresent := by
  intro m
  induction m with
  | zero => intro k s _; exact ⟨rfl, rfl, rfl⟩
  | succ m ih =>
    intro k s hle
    rw [fetchLoop, applyStopAt_miss (by omega)]
    by_cases ha : s.active = true
    · rw [if_pos ha]
      rcases ih (k + 1) { s with fetchTimes := s.fetchTimes ++ [k] } (by omega) with
        ⟨h1, h2, h3⟩
      exact ⟨h1.trans (by simp), h2.trans (by simp), h3.trans (by simp)⟩
    · rw [if_neg ha]
      exact ⟨rfl, rfl, rfl⟩

/-- C9 (amended).  A cycle entered on a stopped (inactive) job returns
immediately — a queued timer firing after the stop never re-enters the job.
The stop handler marks the job stopped, removes it and releases its session
state.  Whenever the stop request arrives at or before the last checkpoint
of a running cycle: the job ends inactive with its jar released, no
next-cycle timer is queued, and no unit fetch runs at or after the stop
time.  If the stop arrives no later than the retry-pass guard, the job
object's status stays `stopped`; a stop landing inside the retry pass is
later overwritten to `running` on the detached object (see the
counterexample). -/
theorem stop_request_semantics :
    (∀ (n r : Nat) (st : Option Nat) (s : JobState), s.active = false →
      runPollCycleM n r st s = s) ∧
    (∀ s : JobState, s.active = true → (stopJob s).status = .stopped ∧
      (stopJob s).active = false ∧ (stopJob s).jarPresent = false) ∧
    (∀ (n r t : Nat) (s : JobState), s.active = true → s.scheduledNext = false →
      t ≤ n + 2 + r →
      (runPollCycleM n r (some t) s).active = false ∧
      (runPollCycleM n r (some t) s).jarPresent = false ∧
      (runPollCycleM n r (some t) s).scheduledNext = false ∧
      (∀ k ∈ (runPollCycleM n r (some t) s).fetchTimes, k ∈ s.fetchTimes ∨ k < t)) ∧
    (∀ (n r t : Nat) (s : JobState), s.active = true → t ≤ n + 1 →
      (runPollCycleM n r (some t) s).status = .stopped) := by
  refine ⟨?_, ?_, ?_, ?_⟩
  · intro n r st s h
    simp only [runPollCycleM]
    rw [applyStopAt_of_inactive h, if_neg (by simp [h])]
  · intro s h
    exact ⟨stopJob_status_of_active h, stopJob_active s, stopJob_jar_of_active h⟩
  · intro n r t s hact hsch ht
    simp only [runPollCycleM]
    by_cases h0 : t ≤ 0
    · rw [applyStopAt_hit h0, if_neg (by simp [stopJob_active])]
      refine ⟨stopJob_active s, stopJob_jar_of_active hact, ?_, ?_⟩
      · rw [stopJob_scheduledNext]
        exact hsch
      · intro k hk
        rw [stopJob_fetchTimes] at hk
        exact Or.inl hk
    · rw [applyStopAt_miss h0, if_pos hact]
      set s2 := fetchLoop (some t) 1 n { s with status := JobStatus.running } with hs2def
      set s3 := applyStopAt (some t) (n + 1) s2 with hs3def
      set s4 := if 0 < r ∧ s3.active = true then
          { (fetchLoop (some t) (n + 2) r { s3 with status := JobStatus.retryingErrors }) with
            status := JobStatus.running }
        else s3 with hs4def
      set s5 := applyStopAt (some t) (n + 2 + r) s4 with hs5def
      have h5a : s5.active = false := by
        rw [hs5def, applyStopAt_hit (show t ≤ n + 2 + r by omega)]
        exact stopJob_active s4
      rw [if_neg (by simp [h5a])]
      have c0 : Clean s := fun hf => absurd hact (by simp [hf])
      have c2 : Clean s2 := by
        rw [hs2def]
        exact clean_fetchLoop _ n 1 _ (fun hf => c0 hf)
      have c3 : Clean s3 := by
        rw [hs3def]
        exact clean_applyStopAt c2
      have c4 : Clean s4 := by
        rw [hs4def]
        split_ifs with hc
        · intro hf
          exact clean_fetchLoop (some t) r (n + 2)
            { s3 with status := JobStatus.retryingErrors } (fun hx => c3 hx) hf
        · exact c3
      have c5 : Clean s5 := by
        rw [hs5def]
        exact clean_applyStopAt c4
      have hsch4 : s4.scheduledNext = s.scheduledNext := by
        rw [hs4def]
        split_ifs with hc
        · show (fetchLoop (some t) (n + 2) r
            { s3 with status := JobStatus.retryingErrors }).scheduledNext = _
          rw [fetchLoop_scheduledNext]
          show s3.scheduledNext = _
          rw [hs3def, applyStopAt_scheduledNext, hs2def, fetchLoop_scheduledNext]
        · rw [hs3def, applyStopAt_scheduledNext, hs2def, fetchLoop_scheduledNext]
      refine ⟨h5a, c5 h5a, ?_, ?_⟩
      · rw [hs5def, applyStopAt_scheduledNext, hsch4]
        exact hsch
      · intro k hk
        rw [hs5def, applyStopAt_fetchTimes] at hk
        have hk4 : k ∈ s4.fetchTimes → k ∈ s.fetchTimes ∨ k < t := by
          intro hk4
          have hk3 : k ∈ s3.fetchTimes → k ∈ s.fetchTimes ∨ k < t := by
            intro hk3
            rw [hs3def, applyStopAt_fetchTimes] at hk3
            rw [hs2def] at hk3
            rcases fetchLoop_times t n 1 _ k hk3 with h | h
            · exact Or.inl h
            · exact Or.inr h
          rw [hs4def] at hk4
          by_cases hc : 0 < r ∧ s3.active = true
          · rw [if_pos hc] at hk4
            have : k ∈ (fetchLoop (some t) (n + 2) r
                { s3 with status := JobStatus.retryingErrors }).fetchTimes := hk4
            rcases fetchLoop_times t r (n + 2) _ k this with h | h
            · exact hk3 h
            · exact Or.inr h
          · rw [if_neg hc] at hk4
            exact hk3 hk4
        exact hk4 hk
  · intro n r t s hact ht
    simp only [runPollCycleM]
    by_cases h0 : t ≤ 0
    · rw [applyStopAt_hit h0, if_neg (by simp [stopJob_active])]
      exact stopJob_status_of_active hact
    · rw [applyStopAt_miss h0, if_pos hact]
      set s2 := fetchLoop (some t) 1 n { s with status := JobStatus.running } with hs2def
      by_cases hn : t ≤ n
      · have hstop := fetchLoop_stopped t n 1 { s with status := JobStatus.running }
          hact (by omega) (by omega)
        rw [← hs2def] at hstop
        have hs3 : applyStopAt (some t) (n + 1) s2 = s2 :=
          applyStopAt_of_inactive hstop.1
        have hcond : ¬ (0 < r ∧ s2.active = true) := by simp [hstop.1]
        have hcond2 : ¬ (s2.active = true) := by simp [hstop.1]
        rw [hs3, if_neg hcond, applyStopAt_of_inactive hstop.1, if_neg hcond2]
        exact hstop.2.1
      · have hns := fetchLoop_no_stop t n 1 { s with status := JobStatus.running }
          (by omega)
        rw [← hs2def] at hns
        have h2a : s2.active = true := by
          rw [hns.1]
          exact hact
        rw [applyStopAt_hit (show t ≤ n + 1 by omega)]
        have hcond : ¬ (0 < r ∧ (stopJob s2).active = true) := by
          simp [stopJob_active]
        have hcond2 : ¬ ((stopJob s2).active = true) := by simp [stopJob_active]
        rw [if_neg hcond, applyStopAt_of_inactive (stopJob_active s2), if_neg hcond2]
        exact stopJob_status_of_active h2a

/-- C9, falsifying instance of the frozen claim: over 1 unit with 1 retry
date, a stop request arriving at checkpoint 3 (inside the error-retry pass)
leaves the detached job object with status `running`, not `stopped` — the
post-retry-pass `job.status = 'running'` write runs even after the break —
although the job is removed, its jar released, no fetch runs at or after the
stop, and no next cycle is scheduled. -/
theorem stop_during_retry_counterexample :
    runPollCycleM 1 1 (some 3) ⟨true, true, .running, [], false⟩ =
      ⟨false, false, .running, [1], false⟩ ∧
    (⟨false, false, JobStatus.running, [1], false⟩ : JobState).status ≠ .stopped := by
  constructor <;> decide

theorem stop_request_semantics_witness :
    (runPollCycleM 2 0 (some 1) ⟨true, true, .running, [], false⟩).active = false ∧
    (runPollCycleM 2 0 (some 1) ⟨true, true, .running, [], false⟩).jarPresent = false ∧
    (runPollCycleM 2 0 (some 1) ⟨true, true, .running, [], false⟩).scheduledNext = false ∧
    (runPollCycleM 2 0 (some 1) ⟨true, true, .running, [], false⟩).status = .stopped := by
  have hB := stop_request_semantics.2.2.1 2 0 1 ⟨true, true, .running, [], false⟩
    rfl rfl (by omega)
  have hC := stop_request_semantics.2.2.2 2 0 1 ⟨true, true, .running, [], false⟩
    rfl (by omega)
  exact ⟨hB.1, hB.2.1, hB.2.2.1, hC⟩

/-- C4, falsifying instance of the frozen claim: the index.js extractor
yields a record for a row with only 2 cells, below the claimed 6-column
minimum. -/
theorem parseCertificateData_columns_counterexample :
    ([strToCodes "1", strToCodes "Asha"] : List (List Nat)).length < 6 ∧
    parseCertificateData [[strToCodes "1", strToCodes "Asha"]] =
      [⟨strToCodes "Asha", [], [], [], []⟩] := by
  constructor <;> decide

theorem nameMatches_containment_spec_witness :
    nameMatches (strToCodes "kowsalya") (strToCodes "D.KOWSALYA") =
      ⟨true, min 100 ((((normalizeName (trim (strToCodes "kowsalya"))).length : ℚ) /
        ((normalizeName (trim (strToCodes "D.KOWSALYA"))).length : ℚ)) * 100),
        strToCodes "D.KOWSALYA"⟩ :=
  nameMatches_containment_spec.1 _ _ (by decide) (by decide) (by decide) (by decide)
    (by decide) (by decide)
    (by rw [show (normalizeName (trim (strToCodes "kowsalya"))).length = 8 from by decide,
          show (normalizeName (trim (strToCodes "D.KOWSALYA"))).length = 9 from by decide]
        norm_num [min_def])

